import Mathlib

set_option maxHeartbeats 1000000

/- Verification development for the coupled logistic network generator
   (coupledlogistic/coupledlogistic.py).

   Machine floating-point values are modelled as Option ℚ, with none playing
   the role of IEEE NaN: any arithmetic operation involving NaN yields NaN,
   and any comparison involving NaN is false.  The engine (diffusivecalc and
   kanekocalc) is embedded over this type, so that the NaN-initialised
   trajectory buffer, the early exit of the per-node loop on a degeneracy
   flag (which leaves the remaining entries of the row as NaN, exactly as in
   the numpy buffer created with np.full(..., np.nan)), and the NaN
   propagation through later rows are all represented faithfully.

   A second, purely rational model of the same update formulas (trajD and
   trajK below) embeds the arithmetic of a single non-degenerate attempt;
   the dynamics claims are settled against it. -/

/-- A machine float: some q is the real value q; none is NaN. -/
abbrev PFloat := Option ℚ

/-- IEEE NaN (the value used by np.full to initialise the buffer). -/
def pNaN : PFloat := none

/-- Float addition; NaN propagates. -/
def pAdd : PFloat → PFloat → PFloat
  | some a, some b => some (a + b)
  | _, _ => pNaN

/-- Float subtraction; NaN propagates. -/
def pSub : PFloat → PFloat → PFloat
  | some a, some b => some (a - b)
  | _, _ => pNaN

/-- Float multiplication; NaN propagates. -/
def pMul : PFloat → PFloat → PFloat
  | some a, some b => some (a * b)
  | _, _ => pNaN

/-- Float division; NaN propagates.  Division of a real by zero is mapped to
NaN: the source divides only by a strictly positive in-degree (sumterm/deg)
or by max(x)-min(x), whose numerator is zero whenever the denominator is, so
the only divisions by zero actually performed are of the form 0/0, which is
NaN in IEEE arithmetic. -/
def pDiv : PFloat → PFloat → PFloat
  | some a, some b => if b = 0 then pNaN else some (a / b)
  | _, _ => pNaN

/-- IEEE equality test (the Python == on floats): any comparison involving
NaN is false, including NaN == NaN. -/
def peq : PFloat → PFloat → Bool
  | some a, some b => decide (a = b)
  | _, _ => false

/-- IEEE strict less-than test: any comparison involving NaN is false. -/
def plt : PFloat → PFloat → Bool
  | some a, some b => decide (a < b)
  | _, _ => false

/-- The per-value degeneracy check of diffusivecalc/kanekocalc:
`if out[n+1,k]==np.nan: temp=1; break`
`elif out[n+1,k]==0 and out[n,k]==0: temp=1; break`. -/
def degenFlag (next prev : PFloat) : Bool :=
  peq next pNaN || (peq next (some 0) && peq prev (some 0))

/-- The inner l-loop of diffusivecalc: starting from sumterm=0, deg[k]=0,
for l in range(nonodes), if A[l,k]==1 accumulate out[n,l]-out[n,k] into
sumterm and increment deg[k]. -/
def sumdegD (A : ℕ → ℕ → ℕ) (N : ℕ) (prev : List PFloat) (k : ℕ) :
    PFloat × ℕ :=
  (List.range N).foldl
    (fun acc l =>
      if A l k == 1 then
        (pAdd acc.1 (pSub (prev.getD l pNaN) (prev.getD k pNaN)), acc.2 + 1)
      else acc)
    (some 0, 0)

/-- The inner l-loop of kanekocalc: if A[l,k]==1 accumulate
r[k]*out[n,l]*(1-out[n,l]) into sumterm and increment deg[k]. -/
def sumdegK (A : ℕ → ℕ → ℕ) (r : ℕ → ℚ) (N : ℕ) (prev : List PFloat)
    (k : ℕ) : PFloat × ℕ :=
  (List.range N).foldl
    (fun acc l =>
      if A l k == 1 then
        (pAdd acc.1
          (pMul (pMul (some (r k)) (prev.getD l pNaN))
            (pSub (some 1) (prev.getD l pNaN))), acc.2 + 1)
      else acc)
    (some 0, 0)

/-- One node update of diffusivecalc: if deg[k]>0 then
out[n+1,k]=(1-sigma)*r[k]*out[n,k]*(1-out[n,k])+sigma*(sumterm/deg[k]),
else out[n+1,k]=r[k]*out[n,k]*(1-out[n,k]). -/
def nodeNextD (A : ℕ → ℕ → ℕ) (r : ℕ → ℚ) (sigma : ℚ) (N : ℕ)
    (prev : List PFloat) (k : ℕ) : PFloat :=
  if 0 < (sumdegD A N prev k).2 then
    pAdd
      (pMul (pMul (pMul (some (1 - sigma)) (some (r k))) (prev.getD k pNaN))
        (pSub (some 1) (prev.getD k pNaN)))
      (pMul (some sigma)
        (pDiv (sumdegD A N prev k).1 (some ((sumdegD A N prev k).2 : ℚ))))
  else
    pMul (pMul (some (r k)) (prev.getD k pNaN)) (pSub (some 1) (prev.getD k pNaN))

/-- One node update of kanekocalc; identical to the diffusive one except for
the coupling sum. -/
def nodeNextK (A : ℕ → ℕ → ℕ) (r : ℕ → ℚ) (sigma : ℚ) (N : ℕ)
    (prev : List PFloat) (k : ℕ) : PFloat :=
  if 0 < (sumdegK A r N prev k).2 then
    pAdd
      (pMul (pMul (pMul (some (1 - sigma)) (some (r k))) (prev.getD k pNaN))
        (pSub (some 1) (prev.getD k pNaN)))
      (pMul (some sigma)
        (pDiv (sumdegK A r N prev k).1 (some ((sumdegK A r N prev k).2 : ℚ))))
  else
    pMul (pMul (some (r k)) (prev.getD k pNaN)) (pSub (some 1) (prev.getD k pNaN))

/-- The k-loop computing row n+1 from row n.  upd is the per-node update
(nodeNextD or nodeNextK applied to the previous row), k the current node
index, todo the number of nodes still to process.  When the degeneracy check
fires the Python loop breaks, so the remaining entries of the row keep the
NaN they were initialised with by np.full; the Bool records temp=1. -/
def buildRow (upd : List PFloat → ℕ → PFloat) (prev : List PFloat) :
    ℕ → ℕ → List PFloat × Bool
  | _, 0 => ([], false)
  | k, todo + 1 =>
    let v := upd prev k
    if degenFlag v (prev.getD k pNaN) then
      (v :: List.replicate todo pNaN, true)
    else
      let rest := buildRow upd prev (k + 1) todo
      (v :: rest.1, rest.2)

/-- The n-loop of one attempt: starting from the current row, perform the
given number of time steps, collecting every row (the returned list holds
steps+1 rows) and the sticky degeneracy flag temp.  Note that in the source
the n-loop always runs to completion even after temp has been set: only the
k-loop is broken out of. -/
def runSteps (upd : List PFloat → ℕ → PFloat) (N : ℕ) :
    List PFloat → Bool → ℕ → List (List PFloat) × Bool
  | row, temp, 0 => ([row], temp)
  | row, temp, steps + 1 =>
    let rb := buildRow upd row 0 N
    let rest := runSteps upd N rb.1 (temp || rb.2) steps
    (row :: rest.1, rest.2)

/-- Row 0 of the buffer: out[0,:]=np.random.random(nonodes), one uniform
draw per node, supplied here by the draw function. -/
def icRow (draw : ℕ → ℚ) (N : ℕ) : List PFloat :=
  (List.range N).map (fun j => some (draw j))

/-- One attempt of the engine: a fresh buffer of tslength+10001 rows, row 0
drawn at random, rows 1..tslength+10000 computed by the n-loop. -/
def attempt (upd : List PFloat → ℕ → PFloat) (draw : ℕ → ℚ)
    (N tslength : ℕ) : List (List PFloat) × Bool :=
  runSteps upd N (icRow draw N) false (tslength + 10000)

/-- The retry while-loop shared by diffusivecalc and kanekocalc:
count is incremented at the top of each iteration; attempt count+1 draws a
brand-new initial condition (draws (count+1)); the loop exits returning the
current buffer when temp==0 or when count>10.  The loop is modelled with
explicit fuel, none meaning the fuel ran out with the loop still running;
termination within 11 iterations is proved, not assumed. -/
def engineLoop (upd : List PFloat → ℕ → PFloat) (draws : ℕ → ℕ → ℚ)
    (N tslength : ℕ) : ℕ → ℕ → Option (List (List PFloat))
  | _, 0 => none
  | count, fuel + 1 =>
    let res := attempt upd (draws (count + 1)) N tslength
    if res.2 = false ∨ 10 < count + 1 then some res.1
    else engineLoop upd draws N tslength (count + 1) fuel

/-- diffusivecalc: the retry loop around the diffusive update. -/
def diffusivecalc (A : ℕ → ℕ → ℕ) (r : ℕ → ℚ) (sigma : ℚ)
    (N tslength : ℕ) (draws : ℕ → ℕ → ℚ) (fuel : ℕ) :
    Option (List (List PFloat)) :=
  engineLoop (nodeNextD A r sigma N) draws N tslength 0 fuel

/-- kanekocalc: the retry loop around the Kaneko update. -/
def kanekocalc (A : ℕ → ℕ → ℕ) (r : ℕ → ℚ) (sigma : ℚ)
    (N tslength : ℕ) (draws : ℕ → ℕ → ℚ) (fuel : ℕ) :
    Option (List (List PFloat)) :=
  engineLoop (nodeNextK A r sigma N) draws N tslength 0 fuel

/-- Column i of the buffer (out[:,i]); absent entries read as the NaN the
buffer was initialised with. -/
def colOf (buf : List (List PFloat)) (i : ℕ) : List PFloat :=
  buf.map (fun row => row.getD i pNaN)

/-- Python's builtin min over a column: keep the current value unless a
later element compares strictly smaller (comparisons with NaN are false).
min of an empty sequence raises ValueError, modelled as none; the empty
column is reachable in the program at tslength=1, when the post-transient
window out[10002:,:] has no rows. -/
def pminL : List PFloat → Option PFloat
  | [] => none
  | h :: t => some (t.foldl (fun m x => if plt x m then x else m) h)

/-- Python's builtin max over a column; max of an empty sequence raises
ValueError, modelled as none. -/
def pmaxL : List PFloat → Option PFloat
  | [] => none
  | h :: t => some (t.foldl (fun m x => if plt m x then x else m) h)

/-- normal: quick 0 to 1 normalization, (x-min(x))/(max(x)-min(x)).
min(x) is evaluated first (inside the numerator), then max(x); on an empty
column the ValueError of min propagates and no table is produced (none). -/
def normal (x : List PFloat) : Option (List PFloat) :=
  (pminL x).bind (fun m =>
    (pmaxL x).map (fun M =>
      x.map (fun v => pDiv (pSub v m) (pSub M m))))

/-- The coupling type argument; the source recognises exactly the strings
'diffusive' and 'kaneko'. -/
inductive CouplingType where
  | diffusive : CouplingType
  | kaneko : CouplingType

/-- The normalisation loop 'for i in range(nonodes): out[:,i]=normal(out[:,i])'
over the cut buffer: i is the current column, todo the number of columns
still to process; a ValueError raised by normal on any column aborts the
call (none).  The result is presented column-wise: entry i is the normalised
column of node i. -/
def normalLoop (cut : List (List PFloat)) : ℕ → ℕ → Option (List (List PFloat))
  | _, 0 => some []
  | i, todo + 1 =>
    match normal (colOf cut i), normalLoop cut (i + 1) todo with
    | some c, some rest => some (c :: rest)
    | _, _ => none

/-- The tail of coupledlogistic: out=out[10002:,:] followed by the per-column
normalisation loop. -/
def postprocess (N : ℕ) (buf : List (List PFloat)) :
    Option (List (List PFloat)) :=
  normalLoop (buf.drop 10002) 0 N

/-- The core of coupledlogistic after the front-end has resolved nonodes and
the parameter vector: dispatch on the coupling type, run the engine, cut the
transient and normalise; none is an uncaught Python exception. -/
def coupledlogisticCore (tslength : ℕ) (r : ℕ → ℚ) (A : ℕ → ℕ → ℕ)
    (sigma : ℚ) (ct : CouplingType) (N : ℕ) (draws : ℕ → ℕ → ℚ)
    (fuel : ℕ) : Option (List (List PFloat)) :=
  (match ct with
   | CouplingType.diffusive => diffusivecalc A r sigma N tslength draws fuel
   | CouplingType.kaneko => kanekocalc A r sigma N tslength draws fuel).bind
    (postprocess N)

/-- nonodes=len(A[1,:]): the node count is the length of the second row of
the adjacency matrix; none models the IndexError raised when the matrix has
fewer than two rows. -/
def nonodesOf (A : List (List ℕ)) : Option ℕ :=
  match A with
  | _ :: row1 :: _ => some row1.length
  | _ => none

/-- The r argument of coupledlogistic: a Python int/float scalar or a
sequence. -/
inductive RInput where
  | scalar : ℚ → RInput
  | vector : List ℚ → RInput

/-- The parameter resolution of coupledlogistic:
`if type(r)==int or type(r)==float: r=np.ones(nonodes)*r`
`elif len(r)==1: r=np.ones(nonodes)*r[0]`
(any other sequence falls through unchanged; no length check is made). -/
def resolveR (nonodes : ℕ) : RInput → List ℚ
  | RInput.scalar c => List.replicate nonodes c
  | RInput.vector v =>
    if v.length = 1 then List.replicate nonodes (v.getD 0 0) else v

/-- Modelled from the spec: the ParameterResolver described in section 4.2,
which is absent from the source.  A full-length sequence is used as-is after
validating length == N; a mismatched length fails with
DimensionMismatchError (modelled as Except.error ()). -/
def resolveRSpec (nonodes : ℕ) : RInput → Except Unit (List ℚ)
  | RInput.scalar c => Except.ok (List.replicate nonodes c)
  | RInput.vector v =>
    if v.length = 1 then Except.ok (List.replicate nonodes (v.getD 0 0))
    else if v.length = nonodes then Except.ok v
    else Except.error ()

/- The rational model of a single non-degenerate attempt: the same update
formulas over plain ℚ. -/

/-- The logistic map f(x)=r*x*(1-x). -/
def logisticf (r x : ℚ) : ℚ := r * x * (1 - x)

/-- The stand-alone logistic trajectory from x0. -/
def logisticTraj (r x0 : ℚ) : ℕ → ℚ
  | 0 => x0
  | n + 1 => logisticf r (logisticTraj r x0 n)

/-- Rational model of the diffusive l-loop. -/
def sumdegQD (A : ℕ → ℕ → ℕ) (N : ℕ) (x : ℕ → ℚ) (k : ℕ) : ℚ × ℕ :=
  (List.range N).foldl
    (fun acc l =>
      if A l k == 1 then (acc.1 + (x l - x k), acc.2 + 1) else acc)
    (0, 0)

/-- Rational model of the Kaneko l-loop. -/
def sumdegQK (A : ℕ → ℕ → ℕ) (r : ℕ → ℚ) (N : ℕ) (x : ℕ → ℚ) (k : ℕ) :
    ℚ × ℕ :=
  (List.range N).foldl
    (fun acc l =>
      if A l k == 1 then (acc.1 + r k * x l * (1 - x l), acc.2 + 1) else acc)
    (0, 0)

/-- Rational model of the diffusive node update. -/
def nodeNextQD (A : ℕ → ℕ → ℕ) (r : ℕ → ℚ) (sigma : ℚ) (N : ℕ)
    (x : ℕ → ℚ) (k : ℕ) : ℚ :=
  let sd := sumdegQD A N x k
  if 0 < sd.2 then
    (1 - sigma) * r k * x k * (1 - x k) + sigma * (sd.1 / (sd.2 : ℚ))
  else r k * x k * (1 - x k)

/-- Rational model of the Kaneko node update. -/
def nodeNextQK (A : ℕ → ℕ → ℕ) (r : ℕ → ℚ) (sigma : ℚ) (N : ℕ)
    (x : ℕ → ℚ) (k : ℕ) : ℚ :=
  let sd := sumdegQK A r N x k
  if 0 < sd.2 then
    (1 - sigma) * r k * x k * (1 - x k) + sigma * (sd.1 / (sd.2 : ℚ))
  else r k * x k * (1 - x k)

/-- Rational trajectory of a single diffusive attempt from the initial
condition ic. -/
def trajD (A : ℕ → ℕ → ℕ) (r : ℕ → ℚ) (sigma : ℚ) (N : ℕ) (ic : ℕ → ℚ) :
    ℕ → ℕ → ℚ
  | 0 => ic
  | n + 1 => fun k => nodeNextQD A r sigma N (trajD A r sigma N ic n) k

/-- Rational trajectory of a single Kaneko attempt. -/
def trajK (A : ℕ → ℕ → ℕ) (r : ℕ → ℚ) (sigma : ℚ) (N : ℕ) (ic : ℕ → ℚ) :
    ℕ → ℕ → ℚ
  | 0 => ic
  | n + 1 => fun k => nodeNextQK A r sigma N (trajK A r sigma N ic n) k

/-- In-degree of node k: the number of l in range(nonodes) with A[l,k]==1. -/
def indeg (A : ℕ → ℕ → ℕ) (N k : ℕ) : ℕ :=
  ((List.range N).filter (fun l => A l k == 1)).length

/-- The list of predecessors of node k, in loop order. -/
def preds (A : ℕ → ℕ → ℕ) (N k : ℕ) : List ℕ :=
  (List.range N).filter (fun l => A l k == 1)

/- Helper lemmas: closed forms of the accumulation loops. -/

theorem foldl_sumdeg (p : ℕ → Bool) (g : ℕ → ℚ) (L : List ℕ) (s : ℚ) (d : ℕ) :
    L.foldl (fun acc l => if p l then (acc.1 + g l, acc.2 + 1) else acc) (s, d)
      = (s + ((L.filter p).map g).sum, d + (L.filter p).length) := by
  induction L generalizing s d with
  | nil => simp
  | cons h t ih =>
    by_cases hp : p h
    · simp only [List.foldl_cons, hp, if_pos, List.filter_cons_of_pos,
        List.map_cons, List.sum_cons, List.length_cons, ih, Prod.mk.injEq]
      constructor
      · ring
      · omega
    · simp only [List.foldl_cons, hp, if_neg, Bool.false_eq_true,
        not_false_iff, List.filter_cons_of_neg, ih]

theorem sumdegQD_eq (A : ℕ → ℕ → ℕ) (N : ℕ) (x : ℕ → ℚ) (k : ℕ) :
    sumdegQD A N x k
      = (((preds A N k).map (fun l => x l - x k)).sum, indeg A N k) := by
  have := foldl_sumdeg (fun l => A l k == 1) (fun l => x l - x k)
    (List.range N) 0 0
  simpa [sumdegQD, preds, indeg] using this

theorem sumdegQK_eq (A : ℕ → ℕ → ℕ) (r : ℕ → ℚ) (N : ℕ) (x : ℕ → ℚ)
    (k : ℕ) :
    sumdegQK A r N x k
      = (((preds A N k).map (fun l => r k * x l * (1 - x l))).sum,
          indeg A N k) := by
  have := foldl_sumdeg (fun l => A l k == 1)
    (fun l => r k * x l * (1 - x l)) (List.range N) 0 0
  simpa [sumdegQK, preds, indeg] using this

/- Node updates: closed forms for coupled and source nodes. -/

theorem nodeNextQD_coupled (A : ℕ → ℕ → ℕ) (r : ℕ → ℚ) (sigma : ℚ)
    (N : ℕ) (x : ℕ → ℚ) (k : ℕ) (h : 0 < indeg A N k) :
    nodeNextQD A r sigma N x k
      = (1 - sigma) * logisticf (r k) (x k)
        + (sigma / (indeg A N k : ℚ))
          * ((preds A N k).map (fun l => x l - x k)).sum := by
  rw [nodeNextQD, sumdegQD_eq]
  simp only [h, if_pos, logisticf]
  ring

theorem nodeNextQK_coupled (A : ℕ → ℕ → ℕ) (r : ℕ → ℚ) (sigma : ℚ)
    (N : ℕ) (x : ℕ → ℚ) (k : ℕ) (h : 0 < indeg A N k) :
    nodeNextQK A r sigma N x k
      = (1 - sigma) * logisticf (r k) (x k)
        + (sigma / (indeg A N k : ℚ))
          * ((preds A N k).map (fun l => logisticf (r k) (x l))).sum := by
  rw [nodeNextQK, sumdegQK_eq]
  simp only [h, if_pos, logisticf]
  ring

theorem nodeNextQD_source (A : ℕ → ℕ → ℕ) (r : ℕ → ℚ) (sigma : ℚ)
    (N : ℕ) (x : ℕ → ℚ) (k : ℕ) (h : indeg A N k = 0) :
    nodeNextQD A r sigma N x k = logisticf (r k) (x k) := by
  rw [nodeNextQD, sumdegQD_eq]
  simp [h, logisticf]

theorem nodeNextQK_source (A : ℕ → ℕ → ℕ) (r : ℕ → ℚ) (sigma : ℚ)
    (N : ℕ) (x : ℕ → ℚ) (k : ℕ) (h : indeg A N k = 0) :
    nodeNextQK A r sigma N x k = logisticf (r k) (x k) := by
  rw [nodeNextQK, sumdegQK_eq]
  simp [h, logisticf]

theorem nodeNextQD_sigma0 (A : ℕ → ℕ → ℕ) (r : ℕ → ℚ) (N : ℕ)
    (x : ℕ → ℚ) (k : ℕ) :
    nodeNextQD A r 0 N x k = logisticf (r k) (x k) := by
  rw [nodeNextQD]
  split
  · simp [logisticf]
  · rfl

theorem nodeNextQK_sigma0 (A : ℕ → ℕ → ℕ) (r : ℕ → ℚ) (N : ℕ)
    (x : ℕ → ℚ) (k : ℕ) :
    nodeNextQK A r 0 N x k = logisticf (r k) (x k) := by
  rw [nodeNextQK]
  split
  · simp [logisticf]
  · rfl

/- Trajectory lemmas. -/

theorem trajD_succ (A : ℕ → ℕ → ℕ) (r : ℕ → ℚ) (sigma : ℚ) (N : ℕ)
    (ic : ℕ → ℚ) (n k : ℕ) :
    trajD A r sigma N ic (n + 1) k
      = nodeNextQD A r sigma N (trajD A r sigma N ic n) k := rfl

theorem trajK_succ (A : ℕ → ℕ → ℕ) (r : ℕ → ℚ) (sigma : ℚ) (N : ℕ)
    (ic : ℕ → ℚ) (n k : ℕ) :
    trajK A r sigma N ic (n + 1) k
      = nodeNextQK A r sigma N (trajK A r sigma N ic n) k := rfl

theorem trajD_source (A : ℕ → ℕ → ℕ) (r : ℕ → ℚ) (sigma : ℚ) (N : ℕ)
    (ic : ℕ → ℚ) (k : ℕ) (h : indeg A N k = 0) :
    ∀ n, trajD A r sigma N ic n k = logisticTraj (r k) (ic k) n := by
  intro n
  induction n with
  | zero => rfl
  | succ n ih =>
    rw [trajD_succ, nodeNextQD_source A r sigma N _ k h, ih]
    rfl

theorem trajK_source (A : ℕ → ℕ → ℕ) (r : ℕ → ℚ) (sigma : ℚ) (N : ℕ)
    (ic : ℕ → ℚ) (k : ℕ) (h : indeg A N k = 0) :
    ∀ n, trajK A r sigma N ic n k = logisticTraj (r k) (ic k) n := by
  intro n
  induction n with
  | zero => rfl
  | succ n ih =>
    rw [trajK_succ, nodeNextQK_source A r sigma N _ k h, ih]
    rfl

theorem traj_sigma0_eq (A : ℕ → ℕ → ℕ) (r : ℕ → ℚ) (N : ℕ) (ic : ℕ → ℚ) :
    ∀ n, trajD A r 0 N ic n = trajK A r 0 N ic n := by
  intro n
  induction n with
  | zero => rfl
  | succ n ih =>
    funext k
    rw [trajD_succ, trajK_succ, nodeNextQD_sigma0, nodeNextQK_sigma0, ih]

/- Engine lemmas: unfolding equations, shapes, termination. -/

theorem buildRow_zero (upd : List PFloat → ℕ → PFloat) (prev : List PFloat)
    (k : ℕ) : buildRow upd prev k 0 = ([], false) := rfl

theorem buildRow_succ (upd : List PFloat → ℕ → PFloat) (prev : List PFloat)
    (k todo : ℕ) :
    buildRow upd prev k (todo + 1)
      = if degenFlag (upd prev k) (prev.getD k pNaN) then
          (upd prev k :: List.replicate todo pNaN, true)
        else
          (upd prev k :: (buildRow upd prev (k + 1) todo).1,
            (buildRow upd prev (k + 1) todo).2) := rfl

theorem buildRow_len (upd : List PFloat → ℕ → PFloat) (prev : List PFloat) :
    ∀ todo k, (buildRow upd prev k todo).1.length = todo := by
  intro todo
  induction todo with
  | zero => intro k; rfl
  | succ todo ih =>
    intro k
    rw [buildRow_succ]
    split
    · simp
    · simp [ih (k + 1)]

theorem runSteps_zero (upd : List PFloat → ℕ → PFloat) (N : ℕ)
    (row : List PFloat) (temp : Bool) :
    runSteps upd N row temp 0 = ([row], temp) := rfl

theorem runSteps_succ (upd : List PFloat → ℕ → PFloat) (N : ℕ)
    (row : List PFloat) (temp : Bool) (steps : ℕ) :
    runSteps upd N row temp (steps + 1)
      = (row :: (runSteps upd N (buildRow upd row 0 N).1
            (temp || (buildRow upd row 0 N).2) steps).1,
          (runSteps upd N (buildRow upd row 0 N).1
            (temp || (buildRow upd row 0 N).2) steps).2) := rfl

theorem runSteps_len (upd : List PFloat → ℕ → PFloat) (N : ℕ) :
    ∀ steps row temp, (runSteps upd N row temp steps).1.length = steps + 1 := by
  intro steps
  induction steps with
  | zero => intro row temp; rfl
  | succ steps ih =>
    intro row temp
    rw [runSteps_succ]
    simp [ih]

theorem runSteps_rows_len (upd : List PFloat → ℕ → PFloat) (N : ℕ) :
    ∀ steps row temp, row.length = N →
      ∀ q ∈ (runSteps upd N row temp steps).1, q.length = N := by
  intro steps
  induction steps with
  | zero =>
    intro row temp h q hq
    rw [runSteps_zero] at hq
    simp only [List.mem_singleton] at hq
    rw [hq]; exact h
  | succ steps ih =>
    intro row temp h q hq
    rw [runSteps_succ] at hq
    rcases List.mem_cons.mp hq with hq | hq
    · rw [hq]; exact h
    · exact ih (buildRow upd row 0 N).1 (temp || (buildRow upd row 0 N).2)
        (buildRow_len upd row N 0) q hq

theorem runSteps_temp_true (upd : List PFloat → ℕ → PFloat) (N : ℕ) :
    ∀ steps row, (runSteps upd N row true steps).2 = true := by
  intro steps
  induction steps with
  | zero => intro row; rfl
  | succ steps ih =>
    intro row
    rw [runSteps_succ]
    simpa using ih (buildRow upd row 0 N).1

theorem icRow_len (draw : ℕ → ℚ) (N : ℕ) : (icRow draw N).length = N := by
  simp [icRow]

theorem engineLoop_zero (upd : List PFloat → ℕ → PFloat)
    (draws : ℕ → ℕ → ℚ) (N ts count : ℕ) :
    engineLoop upd draws N ts count 0 = none := rfl

theorem engineLoop_succ (upd : List PFloat → ℕ → PFloat)
    (draws : ℕ → ℕ → ℚ) (N ts count fuel : ℕ) :
    engineLoop upd draws N ts count (fuel + 1)
      = if (attempt upd (draws (count + 1)) N ts).2 = false ∨ 10 < count + 1
        then some (attempt upd (draws (count + 1)) N ts).1
        else engineLoop upd draws N ts (count + 1) fuel := rfl

theorem engineLoop_isSome (upd : List PFloat → ℕ → PFloat)
    (draws : ℕ → ℕ → ℚ) (N ts : ℕ) :
    ∀ fuel count, count ≤ 10 → 11 - count ≤ fuel →
      ∃ b, engineLoop upd draws N ts count fuel = some b := by
  intro fuel
  induction fuel with
  | zero => intro count h1 h2; omega
  | succ fuel ih =>
    intro count h1 h2
    rw [engineLoop_succ]
    by_cases hc : (attempt upd (draws (count + 1)) N ts).2 = false
        ∨ 10 < count + 1
    · exact ⟨_, if_pos hc⟩
    · rw [if_neg hc]
      push_neg at hc
      exact ih (count + 1) (by omega) (by omega)

theorem engineLoop_mono (upd : List PFloat → ℕ → PFloat)
    (draws : ℕ → ℕ → ℚ) (N ts : ℕ) :
    ∀ fuel fuel' count b, engineLoop upd draws N ts count fuel = some b →
      fuel ≤ fuel' → engineLoop upd draws N ts count fuel' = some b := by
  intro fuel
  induction fuel with
  | zero =>
    intro fuel' count b h
    rw [engineLoop_zero] at h
    exact absurd h (by simp)
  | succ fuel ih =>
    intro fuel' count b h hle
    rcases fuel' with _ | fuel'
    · omega
    rw [engineLoop_succ] at h ⊢
    by_cases hc : (attempt upd (draws (count + 1)) N ts).2 = false
        ∨ 10 < count + 1
    · rw [if_pos hc] at h ⊢; exact h
    · rw [if_neg hc] at h ⊢
      exact ih fuel' (count + 1) b h (by omega)

theorem engineLoop_all_degen (upd : List PFloat → ℕ → PFloat)
    (draws : ℕ → ℕ → ℚ) (N ts : ℕ) :
    ∀ fuel count, count ≤ 10 → 11 - count ≤ fuel →
      (∀ i, count + 1 ≤ i → i ≤ 10 → (attempt upd (draws i) N ts).2 = true) →
      engineLoop upd draws N ts count fuel
        = some (attempt upd (draws 11) N ts).1 := by
  intro fuel
  induction fuel with
  | zero => intro count h1 h2 _; omega
  | succ fuel ih =>
    intro count h1 h2 hdeg
    rw [engineLoop_succ]
    by_cases h10 : count = 10
    · subst h10
      rw [if_pos (Or.inr (by omega))]
    · have hflag := hdeg (count + 1) (by omega) (by omega)
      have hcond : ¬((attempt upd (draws (count + 1)) N ts).2 = false
          ∨ 10 < count + 1) := by
        rintro (hf | hgt)
        · rw [hflag] at hf; cases hf
        · omega
      rw [if_neg hcond]
      exact ih (count + 1) (by omega) (by omega)
        (fun i hi1 hi2 => hdeg i (by omega) hi2)

theorem engineLoop_some_shape (upd : List PFloat → ℕ → PFloat)
    (draws : ℕ → ℕ → ℚ) (N ts : ℕ) :
    ∀ fuel count b, engineLoop upd draws N ts count fuel = some b →
      b.length = ts + 10001 ∧ ∀ row ∈ b, row.length = N := by
  intro fuel
  induction fuel with
  | zero => intro count b h; rw [engineLoop_zero] at h; exact absurd h (by simp)
  | succ fuel ih =>
    intro count b h
    rw [engineLoop_succ] at h
    split at h
    · rw [Option.some.injEq] at h
      subst h
      constructor
      · rw [attempt, runSteps_len]
      · intro row hrow
        exact runSteps_rows_len upd N (ts + 10000) (icRow (draws (count + 1)) N)
          false (icRow_len (draws (count + 1)) N) row hrow
    · exact ih (count + 1) b h

/- Min and max over a real (NaN-free) column, as computed by Python's
builtin min/max loops, and their interplay with pminL/pmaxL. -/

/-- Running minimum of Python's min over first element a then list l. -/
def qmin (a : ℚ) (l : List ℚ) : ℚ :=
  l.foldl (fun m x => if x < m then x else m) a

/-- Running maximum of Python's max over first element a then list l. -/
def qmax (a : ℚ) (l : List ℚ) : ℚ :=
  l.foldl (fun m x => if m < x then x else m) a

theorem qmin_cons (a x : ℚ) (t : List ℚ) :
    qmin a (x :: t) = qmin (if x < a then x else a) t := rfl

theorem qmax_cons (a x : ℚ) (t : List ℚ) :
    qmax a (x :: t) = qmax (if a < x then x else a) t := rfl

theorem qmin_le_init (l : List ℚ) : ∀ a, qmin a l ≤ a := by
  induction l with
  | nil => intro a; exact le_refl a
  | cons x t ih =>
    intro a
    rw [qmin_cons]
    refine le_trans (ih _) ?_
    by_cases h : x < a
    · rw [if_pos h]; exact le_of_lt h
    · rw [if_neg h]

theorem qmin_le_mem (l : List ℚ) : ∀ a, ∀ x ∈ l, qmin a l ≤ x := by
  induction l with
  | nil => intro a x hx; cases hx
  | cons y t ih =>
    intro a x hx
    rw [qmin_cons]
    rcases List.mem_cons.mp hx with hx | hx
    · subst hx
      refine le_trans (qmin_le_init t _) ?_
      by_cases h : x < a
      · rw [if_pos h]
      · rw [if_neg h]; exact le_of_not_lt h
    · exact ih _ x hx

theorem qmin_mem (l : List ℚ) : ∀ a, qmin a l = a ∨ qmin a l ∈ l := by
  induction l with
  | nil => intro a; exact Or.inl rfl
  | cons y t ih =>
    intro a
    rw [qmin_cons]
    rcases ih (if y < a then y else a) with h | h
    · by_cases hy : y < a
      · right; rw [h, if_pos hy]; exact List.mem_cons_self y t
      · left; rw [h, if_neg hy]
    · right; exact List.mem_cons_of_mem y h

theorem init_le_qmax (l : List ℚ) : ∀ a, a ≤ qmax a l := by
  induction l with
  | nil => intro a; exact le_refl a
  | cons x t ih =>
    intro a
    rw [qmax_cons]
    refine le_trans ?_ (ih _)
    by_cases h : a < x
    · rw [if_pos h]; exact le_of_lt h
    · rw [if_neg h]

theorem mem_le_qmax (l : List ℚ) : ∀ a, ∀ x ∈ l, x ≤ qmax a l := by
  induction l with
  | nil => intro a x hx; cases hx
  | cons y t ih =>
    intro a x hx
    rw [qmax_cons]
    rcases List.mem_cons.mp hx with hx | hx
    · subst hx
      refine le_trans ?_ (init_le_qmax t _)
      by_cases h : a < x
      · rw [if_pos h]
      · rw [if_neg h]; exact le_of_not_lt h
    · exact ih _ x hx

theorem qmax_mem (l : List ℚ) : ∀ a, qmax a l = a ∨ qmax a l ∈ l := by
  induction l with
  | nil => intro a; exact Or.inl rfl
  | cons y t ih =>
    intro a
    rw [qmax_cons]
    rcases ih (if a < y then y else a) with h | h
    · by_cases hy : a < y
      · right; rw [h, if_pos hy]; exact List.mem_cons_self y t
      · left; rw [h, if_neg hy]
    · right; exact List.mem_cons_of_mem y h

theorem qmin_le_qmax (a : ℚ) (l : List ℚ) : qmin a l ≤ qmax a l := by
  rcases qmax_mem l a with h | h
  · rw [h]; exact qmin_le_init l a
  · exact qmin_le_mem l a _ h

theorem qmin_map (g : ℚ → ℚ) (hg : ∀ x y : ℚ, g x < g y ↔ x < y)
    (l : List ℚ) : ∀ a, qmin (g a) (l.map g) = g (qmin a l) := by
  induction l with
  | nil => intro a; rfl
  | cons x t ih =>
    intro a
    rw [List.map_cons, qmin_cons, qmin_cons]
    have h : (if g x < g a then g x else g a) = g (if x < a then x else a) := by
      by_cases h : x < a
      · rw [if_pos ((hg x a).mpr h), if_pos h]
      · rw [if_neg (fun hc => h ((hg x a).mp hc)), if_neg h]
    rw [h, ih]

theorem qmax_map (g : ℚ → ℚ) (hg : ∀ x y : ℚ, g x < g y ↔ x < y)
    (l : List ℚ) : ∀ a, qmax (g a) (l.map g) = g (qmax a l) := by
  induction l with
  | nil => intro a; rfl
  | cons x t ih =>
    intro a
    rw [List.map_cons, qmax_cons, qmax_cons]
    have h : (if g a < g x then g x else g a) = g (if a < x then x else a) := by
      by_cases h : a < x
      · rw [if_pos ((hg a x).mpr h), if_pos h]
      · rw [if_neg (fun hc => h ((hg a x).mp hc)), if_neg h]
    rw [h, ih]

theorem foldl_pmin_map (l : List ℚ) : ∀ a : ℚ,
    (l.map some).foldl (fun m x => if plt x m then x else m) (some a)
      = some (qmin a l) := by
  induction l with
  | nil => intro a; rfl
  | cons x t ih =>
    intro a
    rw [List.map_cons, List.foldl_cons]
    have h : (if plt (some x) (some a) then some x else some a)
        = (some (if x < a then x else a) : PFloat) := by
      by_cases h : x < a
      · simp [plt, h]
      · simp [plt, h]
    rw [h, ih, qmin_cons]

theorem foldl_pmax_map (l : List ℚ) : ∀ a : ℚ,
    (l.map some).foldl (fun m x => if plt m x then x else m) (some a)
      = some (qmax a l) := by
  induction l with
  | nil => intro a; rfl
  | cons x t ih =>
    intro a
    rw [List.map_cons, List.foldl_cons]
    have h : (if plt (some a) (some x) then some x else some a)
        = (some (if a < x then x else a) : PFloat) := by
      by_cases h : a < x
      · simp [plt, h]
      · simp [plt, h]
    rw [h, ih, qmax_cons]

theorem pminL_map_some (a : ℚ) (l : List ℚ) :
    pminL ((a :: l).map some) = some (some (qmin a l)) := by
  rw [List.map_cons]
  show some ((l.map some).foldl (fun m x => if plt x m then x else m) (some a))
    = some (some (qmin a l))
  rw [foldl_pmin_map l a]

theorem pmaxL_map_some (a : ℚ) (l : List ℚ) :
    pmaxL ((a :: l).map some) = some (some (qmax a l)) := by
  rw [List.map_cons]
  show some ((l.map some).foldl (fun m x => if plt m x then x else m) (some a))
    = some (some (qmax a l))
  rw [foldl_pmax_map l a]

theorem normal_map_some (a : ℚ) (l : List ℚ) (hne : qmin a l ≠ qmax a l) :
    normal ((a :: l).map some)
      = some (((a :: l).map
          (fun x => (x - qmin a l) / (qmax a l - qmin a l))).map some) := by
  have hMm : qmax a l - qmin a l ≠ 0 :=
    sub_ne_zero_of_ne (Ne.symm hne)
  rw [normal, pminL_map_some, pmaxL_map_some]
  rw [Option.some_bind, Option.map_some']
  rw [Option.some.injEq, List.map_map, List.map_map]
  refine List.map_congr_left ?_
  intro x _
  simp [Function.comp, pSub, pDiv, hMm]

/- A concrete degenerate run: the documented X->Y system A=[[0,1],[0,0]],
r=4, sigma=1/5, with every random draw equal to 0 (0 is a possible value of
np.random.random, which draws uniformly from [0,1)).  Starting from 0 every
node is stuck at 0, the degeneracy check fires at step 0 on node 0, the
k-loop breaks before node 1 is ever written (leaving its NaN), all 11
attempts are degenerate, and the last degenerate buffer is returned. -/

/-- The adjacency matrix [[0,1],[0,0]] of the usage example. -/
def Axy : ℕ → ℕ → ℕ := fun l k => if l == 0 && k == 1 then 1 else 0

/-- The parameter r=4 broadcast to every node. -/
def r4 : ℕ → ℚ := fun _ => 4

/-- A random source all of whose draws are 0. -/
def draws0 : ℕ → ℕ → ℚ := fun _ _ => 0

/-- The initial row when both draws are 0. -/
def rowZZ : List PFloat := [some 0, some 0]

/-- Every later row: node 0 stuck at 0, node 1 never written (NaN). -/
def rowZN : List PFloat := [some 0, pNaN]

/-- The coupling strength sigma=1/5 of the usage example, kept as a named
constant so that rewriting does not normalise it. -/
def sigmaX : ℚ := 1/5

theorem nodeNextD_Axy_node0 (prev : List PFloat)
    (h : prev.getD 0 pNaN = some 0) :
    nodeNextD Axy r4 sigmaX 2 prev 0 = some 0 := by
  have hsd : sumdegD Axy 2 prev 0 = (some 0, 0) := rfl
  simp only [nodeNextD, hsd]
  rw [h]
  simp [pMul, pSub, r4]

theorem buildRow_Axy_rowZZ :
    buildRow (nodeNextD Axy r4 sigmaX 2) rowZZ 0 2 = (rowZN, true) := by
  rw [buildRow_succ, nodeNextD_Axy_node0 rowZZ rfl]
  simp [degenFlag, peq, pNaN, rowZZ, rowZN]

theorem buildRow_Axy_rowZN :
    buildRow (nodeNextD Axy r4 sigmaX 2) rowZN 0 2 = (rowZN, true) := by
  rw [buildRow_succ, nodeNextD_Axy_node0 rowZN rfl]
  simp [degenFlag, peq, pNaN, rowZN]

theorem runSteps_Axy_rowZN (steps : ℕ) :
    runSteps (nodeNextD Axy r4 sigmaX 2) 2 rowZN true steps
      = (List.replicate (steps + 1) rowZN, true) := by
  induction steps with
  | zero => rfl
  | succ steps ih =>
    rw [runSteps_succ, buildRow_Axy_rowZN]
    dsimp only
    simp only [Bool.true_or]
    rw [ih]
    dsimp only
    simp [List.replicate_succ]

theorem attempt_Axy_zero :
    attempt (nodeNextD Axy r4 sigmaX 2) (fun _ => 0) 2 2
      = (rowZZ :: List.replicate 10002 rowZN, true) := by
  have hic : icRow (fun _ => (0:ℚ)) 2 = rowZZ := rfl
  have h1 : (2 + 10000 : ℕ) = 10001 + 1 := by norm_num
  rw [attempt, hic, h1, runSteps_succ, buildRow_Axy_rowZZ]
  dsimp only
  simp only [Bool.false_or]
  rw [runSteps_Axy_rowZN]

theorem diffusive_cex :
    diffusivecalc Axy r4 sigmaX 2 2 draws0 11
      = some (rowZZ :: List.replicate 10002 rowZN) := by
  rw [diffusivecalc]
  have hall : ∀ i, 0 + 1 ≤ i → i ≤ 10 →
      (attempt (nodeNextD Axy r4 sigmaX 2) (draws0 i) 2 2).2 = true := by
    intro i _ _
    have h : draws0 i = fun _ => (0:ℚ) := rfl
    rw [h, attempt_Axy_zero]
  have hmain := engineLoop_all_degen (nodeNextD Axy r4 sigmaX 2) draws0 2 2 11 0
    (by omega) (by omega) hall
  rw [hmain]
  have h : draws0 11 = fun _ => (0:ℚ) := rfl
  rw [h, attempt_Axy_zero]

theorem drop_replicate_list (x : List PFloat) :
    ∀ n m, (List.replicate m x).drop n = List.replicate (m - n) x := by
  intro n
  induction n with
  | zero => intro m; simp
  | succ n ih =>
    intro m
    cases m with
    | zero => simp
    | succ m =>
      rw [List.replicate_succ, List.drop_succ_cons, ih]
      congr 1
      omega

theorem normal_z : normal [some 0] = some [pNaN] := by
  rw [normal]
  simp [pminL, pmaxL, pSub, pDiv, pNaN]

theorem normal_nan : normal [pNaN] = some [pNaN] := by
  rw [normal]
  simp [pminL, pmaxL, pSub, pDiv, pNaN]

theorem postprocess_cex :
    postprocess 2 (rowZZ :: List.replicate 10002 rowZN)
      = some [[pNaN], [pNaN]] := by
  have hdrop : (rowZZ :: List.replicate 10002 rowZN).drop 10002 = [rowZN] := by
    have h1 : (10002 : ℕ) = 10001 + 1 := by norm_num
    rw [h1, List.drop_succ_cons, drop_replicate_list]
    norm_num
  have hc0 : colOf [rowZN] 0 = [some 0] := rfl
  have hc1 : colOf [rowZN] 1 = [pNaN] := rfl
  rw [postprocess, hdrop]
  simp only [normalLoop, hc0, hc1, normal_z, normal_nan]

/- A minimal one-node degenerate instance, used to exhibit a flagged
attempt at an arbitrary series length. -/

/-- The empty 1-node adjacency matrix. -/
def A0 : ℕ → ℕ → ℕ := fun _ _ => 0

/-- The parameter r=0 broadcast to every node. -/
def r0 : ℕ → ℚ := fun _ => 0

theorem nodeNextD_A0_node0 (prev : List PFloat)
    (h : prev.getD 0 pNaN = some 0) :
    nodeNextD A0 r0 0 1 prev 0 = some 0 := by
  have hsd : sumdegD A0 1 prev 0 = (some 0, 0) := rfl
  simp only [nodeNextD, hsd]
  rw [h]
  simp [pMul, pSub, r0]

theorem buildRow_A0_z :
    buildRow (nodeNextD A0 r0 0 1) [some 0] 0 1 = ([some 0], true) := by
  rw [buildRow_succ, nodeNextD_A0_node0 [some 0] rfl]
  simp [degenFlag, peq, pNaN]

theorem attempt_A0_flag (ts : ℕ) :
    (attempt (nodeNextD A0 r0 0 1) (fun _ => 0) 1 ts).2 = true := by
  have hic : icRow (fun _ => (0:ℚ)) 1 = [some 0] := rfl
  obtain ⟨s, hs⟩ : ∃ s, ts + 10000 = s + 1 := ⟨ts + 9999, by omega⟩
  rw [attempt, hic, hs, runSteps_succ, buildRow_A0_z]
  dsimp only
  simp only [Bool.false_or]
  exact runSteps_temp_true (nodeNextD A0 r0 0 1) 1 s [some 0]

/- Shape of the postprocessed output. -/

theorem normal_ne_nil (x : List PFloat) (hx : x ≠ []) :
    ∃ y, normal x = some y ∧ y.length = x.length := by
  cases x with
  | nil => exact absurd rfl hx
  | cons h t => exact ⟨_, rfl, by simp⟩

theorem colOf_length (buf : List (List PFloat)) (i : ℕ) :
    (colOf buf i).length = buf.length := by
  simp [colOf]

theorem normalLoop_some (cut : List (List PFloat)) (hne : cut ≠ []) :
    ∀ todo i, ∃ cols, normalLoop cut i todo = some cols
      ∧ cols.length = todo ∧ ∀ c ∈ cols, c.length = cut.length := by
  intro todo
  induction todo with
  | zero => intro i; exact ⟨[], rfl, rfl, by simp⟩
  | succ todo ih =>
    intro i
    obtain ⟨cols, h1, h2, h3⟩ := ih (i + 1)
    have hcol : colOf cut i ≠ [] := by
      cases cut with
      | nil => exact absurd rfl hne
      | cons r t => simp [colOf]
    obtain ⟨y, hy, hylen⟩ := normal_ne_nil (colOf cut i) hcol
    refine ⟨y :: cols, ?_, by simp [h2], ?_⟩
    · simp only [normalLoop]
      rw [hy, h1]
    · intro c hc
      rcases List.mem_cons.mp hc with hc | hc
      · rw [hc, hylen, colOf_length]
      · exact h3 c hc

theorem normalLoop_nil_none (i todo : ℕ) (h : 1 ≤ todo) :
    normalLoop ([] : List (List PFloat)) i todo = none := by
  cases todo with
  | zero => omega
  | succ todo =>
    have hcol : normal (colOf ([] : List (List PFloat)) i) = none := rfl
    simp only [normalLoop]
    rw [hcol]

theorem engine_postprocess_shape (upd : List PFloat → ℕ → PFloat)
    (draws : ℕ → ℕ → ℚ) (N ts fuel : ℕ) (hfuel : 11 ≤ fuel)
    (hts : 2 ≤ ts) :
    ∃ cols, (engineLoop upd draws N ts 0 fuel).bind (postprocess N) = some cols
      ∧ cols.length = N ∧ ∀ c ∈ cols, c.length = ts - 1 := by
  obtain ⟨b, hb⟩ := engineLoop_isSome upd draws N ts fuel 0 (by omega) (by omega)
  obtain ⟨hlen, _⟩ := engineLoop_some_shape upd draws N ts fuel 0 b hb
  have hcut : (b.drop 10002).length = ts - 1 := by
    rw [List.length_drop, hlen]
    omega
  have hne : b.drop 10002 ≠ [] := by
    intro hc
    rw [hc] at hcut
    simp only [List.length_nil] at hcut
    omega
  obtain ⟨cols, h1, h2, h3⟩ := normalLoop_some (b.drop 10002) hne N 0
  refine ⟨cols, ?_, h2, ?_⟩
  · rw [hb, Option.some_bind, postprocess]
    exact h1
  · intro c hc
    rw [h3 c hc, hcut]

theorem engine_postprocess_empty (upd : List PFloat → ℕ → PFloat)
    (draws : ℕ → ℕ → ℚ) (N ts fuel : ℕ) (hfuel : 11 ≤ fuel)
    (hts : ts = 1) (hN : 1 ≤ N) :
    (engineLoop upd draws N ts 0 fuel).bind (postprocess N) = none := by
  obtain ⟨b, hb⟩ := engineLoop_isSome upd draws N ts fuel 0 (by omega) (by omega)
  obtain ⟨hlen, _⟩ := engineLoop_some_shape upd draws N ts fuel 0 b hb
  have hcut : b.drop 10002 = [] := by
    apply List.drop_eq_nil_of_le
    omega
  rw [hb, Option.some_bind, postprocess, hcut]
  exact normalLoop_nil_none 0 N hN

/-- Claim C1: for every valid input with tslength at least 2 the returned
table has N columns, but each column holds tslength-1 values, not tslength:
the raw buffer has tslength+10001 rows and the first 10002 are discarded,
leaving tslength-1.  This contradicts the function's own docstring, which
promises tslength points per node.  At tslength=1 the kept window is empty
and the call does not return at all: min of the empty column raises a
ValueError (modelled as none). -/
theorem claim_C1_shape (tslength : ℕ) (r : ℕ → ℚ) (A : ℕ → ℕ → ℕ)
    (sigma : ℚ) (ct : CouplingType) (N : ℕ) (draws : ℕ → ℕ → ℚ)
    (fuel : ℕ) (hfuel : 11 ≤ fuel) :
    (2 ≤ tslength →
      ∃ cols, coupledlogisticCore tslength r A sigma ct N draws fuel = some cols
        ∧ cols.length = N
        ∧ (∀ c ∈ cols, c.length = tslength - 1)
        ∧ (∀ c ∈ cols, c.length ≠ tslength))
    ∧ (tslength = 1 → 1 ≤ N →
        coupledlogisticCore tslength r A sigma ct N draws fuel = none) := by
  have main : ∀ upd : List PFloat → ℕ → PFloat,
      (2 ≤ tslength → ∃ cols,
        (engineLoop upd draws N tslength 0 fuel).bind (postprocess N) = some cols
          ∧ cols.length = N ∧ (∀ c ∈ cols, c.length = tslength - 1)
          ∧ (∀ c ∈ cols, c.length ≠ tslength))
      ∧ (tslength = 1 → 1 ≤ N →
          (engineLoop upd draws N tslength 0 fuel).bind (postprocess N) = none) := by
    intro upd
    constructor
    · intro hts
      obtain ⟨cols, h1, h2, h3⟩ :=
        engine_postprocess_shape upd draws N tslength fuel hfuel hts
      refine ⟨cols, h1, h2, h3, fun c hc => ?_⟩
      rw [h3 c hc]
      omega
    · intro hts hN
      exact engine_postprocess_empty upd draws N tslength fuel hfuel hts hN
  cases ct with
  | diffusive => exact main (nodeNextD A r sigma N)
  | kaneko => exact main (nodeNextK A r sigma N)

theorem claim_C1_shape_witness :
    (11 ≤ 11) ∧ (2 ≤ 2)
    ∧ (∃ cols,
        coupledlogisticCore 2 r4 Axy sigmaX CouplingType.diffusive 2 draws0 11
          = some cols
        ∧ cols.length = 2
        ∧ (∀ c ∈ cols, c.length = 2 - 1)
        ∧ (∀ c ∈ cols, c.length ≠ 2))
    ∧ coupledlogisticCore 1 r4 Axy sigmaX CouplingType.diffusive 2 draws0 11
        = none :=
  ⟨by norm_num, by norm_num,
    (claim_C1_shape 2 r4 Axy sigmaX CouplingType.diffusive 2 draws0 11
      (by norm_num)).1 (by norm_num),
    (claim_C1_shape 1 r4 Axy sigmaX CouplingType.diffusive 2 draws0 11
      (by norm_num)).2 rfl (by norm_num)⟩

/-- Claim C2: for every node k with positive in-degree and every time step,
the next value is (1-sigma)*f(x_n^k) plus (sigma/deg) times the sum over the
predecessors l (those with A[l,k]=1) of x_n^l - x_n^k under the diffusive
scheme, or of f(x_n^l) under the Kaneko scheme, where f(x) = r_k*x*(1-x). -/
theorem claim_C2_update_rule (A : ℕ → ℕ → ℕ) (r : ℕ → ℚ) (sigma : ℚ)
    (N : ℕ) (ic : ℕ → ℚ) (n k : ℕ) (h : 0 < indeg A N k) :
    trajD A r sigma N ic (n + 1) k
      = (1 - sigma) * logisticf (r k) (trajD A r sigma N ic n k)
        + (sigma / (indeg A N k : ℚ))
          * ((preds A N k).map
              (fun l => trajD A r sigma N ic n l - trajD A r sigma N ic n k)).sum
    ∧ trajK A r sigma N ic (n + 1) k
      = (1 - sigma) * logisticf (r k) (trajK A r sigma N ic n k)
        + (sigma / (indeg A N k : ℚ))
          * ((preds A N k).map
              (fun l => logisticf (r k) (trajK A r sigma N ic n l))).sum := by
  constructor
  · rw [trajD_succ]
    exact nodeNextQD_coupled A r sigma N (trajD A r sigma N ic n) k h
  · rw [trajK_succ]
    exact nodeNextQK_coupled A r sigma N (trajK A r sigma N ic n) k h

theorem claim_C2_update_rule_witness :
    0 < indeg Axy 2 1
    ∧ (trajD Axy r4 sigmaX 2 (fun _ => 1/2) (0 + 1) 1
        = (1 - sigmaX) * logisticf (r4 1) (trajD Axy r4 sigmaX 2 (fun _ => 1/2) 0 1)
          + (sigmaX / (indeg Axy 2 1 : ℚ))
            * ((preds Axy 2 1).map
                (fun l => trajD Axy r4 sigmaX 2 (fun _ => 1/2) 0 l
                  - trajD Axy r4 sigmaX 2 (fun _ => 1/2) 0 1)).sum
      ∧ trajK Axy r4 sigmaX 2 (fun _ => 1/2) (0 + 1) 1
        = (1 - sigmaX) * logisticf (r4 1) (trajK Axy r4 sigmaX 2 (fun _ => 1/2) 0 1)
          + (sigmaX / (indeg Axy 2 1 : ℚ))
            * ((preds Axy 2 1).map
                (fun l => logisticf (r4 1)
                  (trajK Axy r4 sigmaX 2 (fun _ => 1/2) 0 l))).sum) :=
  ⟨by decide, claim_C2_update_rule Axy r4 sigmaX 2 (fun _ => 1/2) 0 1 (by decide)⟩

/-- Claim C3: a node with in-degree 0 follows the stand-alone logistic map
iterated from its own initial draw, for both coupling schemes and every
sigma; neither sigma nor the scheme enters its update. -/
theorem claim_C3_source_node (A : ℕ → ℕ → ℕ) (r : ℕ → ℚ) (sigma : ℚ)
    (N : ℕ) (ic : ℕ → ℚ) (k : ℕ) (h : indeg A N k = 0) :
    ∀ n, trajD A r sigma N ic n k = logisticTraj (r k) (ic k) n
      ∧ trajK A r sigma N ic n k = logisticTraj (r k) (ic k) n :=
  fun n => ⟨trajD_source A r sigma N ic k h n, trajK_source A r sigma N ic k h n⟩

theorem claim_C3_source_node_witness :
    indeg Axy 2 0 = 0
    ∧ ∀ n, trajD Axy r4 sigmaX 2 (fun _ => 1/2) n 0
        = logisticTraj (r4 0) (1/2) n
      ∧ trajK Axy r4 sigmaX 2 (fun _ => 1/2) n 0
        = logisticTraj (r4 0) (1/2) n :=
  ⟨by decide, claim_C3_source_node Axy r4 sigmaX 2 (fun _ => 1/2) 0 (by decide)⟩

/-- Claim C5: with sigma=0 and identical initial conditions the diffusive
and Kaneko schemes produce identical trajectories, and every node (source
or not) follows the bare logistic update f(x) = r_k*x*(1-x). -/
theorem claim_C5_sigma_zero (A : ℕ → ℕ → ℕ) (r : ℕ → ℚ) (N : ℕ)
    (ic : ℕ → ℚ) (n : ℕ) :
    trajD A r 0 N ic n = trajK A r 0 N ic n
    ∧ ∀ k, trajD A r 0 N ic (n + 1) k
        = logisticf (r k) (trajD A r 0 N ic n k)
      ∧ trajK A r 0 N ic (n + 1) k
        = logisticf (r k) (trajK A r 0 N ic n k) := by
  refine ⟨traj_sigma0_eq A r N ic n, fun k => ⟨?_, ?_⟩⟩
  · rw [trajD_succ, nodeNextQD_sigma0]
  · rw [trajK_succ, nodeNextQK_sigma0]

/-- Claim C6: the retry loop always terminates within 11 attempts (the
first try plus 10 retries): with fuel for at least 11 iterations the result
equals the fuel-11 result, which is always a buffer, never a failure; and
when every attempt is degenerate the buffer of the 11th (last) attempt is
returned rather than an error. -/
theorem claim_C6_retry_bound (upd : List PFloat → ℕ → PFloat)
    (draws : ℕ → ℕ → ℚ) (N ts fuel : ℕ) (hfuel : 11 ≤ fuel) :
    engineLoop upd draws N ts 0 fuel = engineLoop upd draws N ts 0 11
    ∧ (∃ buf, engineLoop upd draws N ts 0 11 = some buf)
    ∧ ((∀ i, 1 ≤ i → i ≤ 10 → (attempt upd (draws i) N ts).2 = true)
        → engineLoop upd draws N ts 0 11
            = some (attempt upd (draws 11) N ts).1) := by
  obtain ⟨b, hb⟩ := engineLoop_isSome upd draws N ts 11 0 (by omega) (by omega)
  refine ⟨?_, ⟨b, hb⟩, ?_⟩
  · rw [hb]
    exact engineLoop_mono upd draws N ts 11 fuel 0 b hb hfuel
  · intro hdeg
    exact engineLoop_all_degen upd draws N ts 11 0 (by omega) (by omega)
      (fun i h1 h2 => hdeg i h1 h2)

theorem claim_C6_retry_bound_witness :
    (11 ≤ 11)
    ∧ (engineLoop (nodeNextD A0 r0 0 1) draws0 1 0 0 11
        = engineLoop (nodeNextD A0 r0 0 1) draws0 1 0 0 11
      ∧ (∃ buf, engineLoop (nodeNextD A0 r0 0 1) draws0 1 0 0 11 = some buf)
      ∧ ((∀ i, 1 ≤ i → i ≤ 10 →
            (attempt (nodeNextD A0 r0 0 1) (draws0 i) 1 0).2 = true)
          → engineLoop (nodeNextD A0 r0 0 1) draws0 1 0 0 11
              = some (attempt (nodeNextD A0 r0 0 1) (draws0 11) 1 0).1)) :=
  ⟨by norm_num, claim_C6_retry_bound (nodeNextD A0 r0 0 1) draws0 1 0 11
    (by norm_num)⟩

/-- Claim C4 counterexample: for the valid input tslength=2, the documented
X->Y system A=[[0,1],[0,0]], r=4, sigma=1/5, diffusive, with every random
draw equal to 0 (a possible value of the uniform [0,1) generator), all 11
attempts are degenerate, the kept window is a single constant row, and the
0/0 min-max normalisation makes every entry of the returned table NaN: the
entries are not numbers in [0,1] and no column attains the maximum 1. -/
theorem claim_C4_counterexample :
    coupledlogisticCore 2 r4 Axy sigmaX CouplingType.diffusive 2 draws0 11
      = some [[pNaN], [pNaN]]
    ∧ (∀ q : ℚ, pNaN ≠ some q)
    ∧ pmaxL [pNaN] ≠ some (some 1) := by
  refine ⟨?_, ?_, ?_⟩
  · show (diffusivecalc Axy r4 sigmaX 2 2 draws0 11).bind (postprocess 2) = _
    rw [diffusive_cex, Option.some_bind, postprocess_cex]
  · intro q h
    exact Option.noConfusion h
  · simp [pmaxL, pNaN]

/-- Claim C4 (amended): whenever a nonempty column of real values is not
constant (its running minimum and maximum differ), normal succeeds and maps
every entry to a real number in [0,1], and the normalised column has
minimum exactly 0 and maximum exactly 1.  A constant column instead hits
the division by zero of (x-min)/(max-min), as exhibited by the
counterexample. -/
theorem claim_C4_normal_range (a : ℚ) (l : List ℚ)
    (h : qmin a l ≠ qmax a l) :
    ∃ y, normal ((a :: l).map some) = some y
      ∧ (∀ v ∈ y, ∃ q, v = some q ∧ 0 ≤ q ∧ q ≤ 1)
      ∧ pminL y = some (some 0)
      ∧ pmaxL y = some (some 1) := by
  have hle := qmin_le_qmax a l
  have hlt : qmin a l < qmax a l := lt_of_le_of_ne hle h
  have hpos : 0 < qmax a l - qmin a l := sub_pos.mpr hlt
  have hMm : qmax a l - qmin a l ≠ 0 := ne_of_gt hpos
  have hgmono : ∀ x y : ℚ,
      (x - qmin a l) / (qmax a l - qmin a l)
        < (y - qmin a l) / (qmax a l - qmin a l) ↔ x < y := by
    intro x y
    rw [div_lt_div_iff_of_pos_right hpos]
    exact sub_lt_sub_iff_right (qmin a l)
  have hmap := normal_map_some a l h
  have hlb : ∀ y ∈ a :: l, qmin a l ≤ y := by
    intro y hy
    rcases List.mem_cons.mp hy with hy | hy
    · rw [hy]; exact qmin_le_init l a
    · exact qmin_le_mem l a y hy
  have hub : ∀ y ∈ a :: l, y ≤ qmax a l := by
    intro y hy
    rcases List.mem_cons.mp hy with hy | hy
    · rw [hy]; exact init_le_qmax l a
    · exact mem_le_qmax l a y hy
  refine ⟨((a :: l).map
      (fun x => (x - qmin a l) / (qmax a l - qmin a l))).map some,
    hmap, ?_, ?_, ?_⟩
  · intro v hv
    obtain ⟨x, hx, rfl⟩ := List.mem_map.mp hv
    obtain ⟨y, hy, rfl⟩ := List.mem_map.mp hx
    exact ⟨_, rfl, div_nonneg (sub_nonneg.mpr (hlb y hy)) (le_of_lt hpos),
      (div_le_one hpos).mpr (sub_le_sub_right (hub y hy) _)⟩
  · rw [List.map_cons, pminL_map_some,
      qmin_map (fun x => (x - qmin a l) / (qmax a l - qmin a l)) hgmono l a]
    norm_num
  · rw [List.map_cons, pmaxL_map_some,
      qmax_map (fun x => (x - qmin a l) / (qmax a l - qmin a l)) hgmono l a,
      Option.some.injEq, Option.some.injEq]
    exact div_self hMm

theorem claim_C4_normal_range_witness :
    qmin 0 [1] ≠ qmax 0 [1]
    ∧ ∃ y, normal (((0:ℚ) :: [1]).map some) = some y
      ∧ (∀ v ∈ y, ∃ q, v = some q ∧ 0 ≤ q ∧ q ≤ 1)
      ∧ pminL y = some (some 0)
      ∧ pmaxL y = some (some 1) :=
  ⟨by norm_num [qmin, qmax], claim_C4_normal_range 0 [1] (by norm_num [qmin, qmax])⟩

/-- Claim C7 counterexample: a not-a-number computed value does not set the
degeneracy flag, because the check compares it to np.nan with ==, which is
false for NaN; so "flagged exactly when some computed value is NaN or some
value is 0 twice in a row" fails in the NaN direction. -/
theorem claim_C7_counterexample :
    degenFlag pNaN (some (1/2)) = false := rfl

/-- Claim C7 (amended): an attempt is flagged degenerate exactly when some
node value is exactly 0 at two consecutive steps (the NaN disjunct of the
check never fires), and a flagged attempt within the retry budget is
discarded: the loop moves on to a fresh attempt with a brand-new initial
draw instead of returning the flagged buffer. -/
theorem claim_C7_degeneracy_policy :
    (∀ v p : PFloat, degenFlag v p = true ↔ (v = some 0 ∧ p = some 0))
    ∧ (∀ (upd : List PFloat → ℕ → PFloat) (draws : ℕ → ℕ → ℚ)
        (N ts count fuel : ℕ),
        (attempt upd (draws (count + 1)) N ts).2 = true → count + 1 ≤ 10 →
        engineLoop upd draws N ts count (fuel + 1)
          = engineLoop upd draws N ts (count + 1) fuel) := by
  constructor
  · intro v p
    cases v with
    | none => simp [degenFlag, peq, pNaN]
    | some q =>
      cases p with
      | none => simp [degenFlag, peq, pNaN]
      | some q2 => simp [degenFlag, peq, pNaN]
  · intro upd draws N ts count fuel hflag hcount
    rw [engineLoop_succ, if_neg]
    rintro (hf | hgt)
    · rw [hflag] at hf
      cases hf
    · omega

theorem claim_C7_degeneracy_policy_witness :
    ((attempt (nodeNextD A0 r0 0 1) (draws0 1) 1 0).2 = true ∧ 0 + 1 ≤ 10)
    ∧ (degenFlag (some 0) (some 0) = true
        ↔ ((some 0 : PFloat) = some 0 ∧ (some 0 : PFloat) = some 0))
    ∧ engineLoop (nodeNextD A0 r0 0 1) draws0 1 0 0 (10 + 1)
        = engineLoop (nodeNextD A0 r0 0 1) draws0 1 0 (0 + 1) 10 :=
  ⟨⟨attempt_A0_flag 0, by norm_num⟩,
    claim_C7_degeneracy_policy.1 (some 0) (some 0),
    claim_C7_degeneracy_policy.2 (nodeNextD A0 r0 0 1) draws0 1 0 0 10
      (attempt_A0_flag 0) (by norm_num)⟩

/-- Claim C8: the NaN branch of the degeneracy check is unreachable: the
equality comparison of any value with NaN is never true, so the flag is
exactly the stuck-at-zero test and a retry is never triggered by NaN. -/
theorem claim_C8_nan_check_inert :
    (∀ v : PFloat, peq v pNaN = false)
    ∧ (∀ v p : PFloat, degenFlag v p = (peq v (some 0) && peq p (some 0))) := by
  constructor
  · intro v
    cases v <;> rfl
  · intro v p
    cases v <;> rfl

/-- Claim C9 counterexample: a parameter vector of length 3 against 2 nodes
is returned unchanged by the source's parameter resolution, which raises no
DimensionMismatchError, while the spec-modelled resolver rejects it. -/
theorem claim_C9_counterexample :
    resolveR 2 (RInput.vector [1, 2, 3]) = [1, 2, 3]
    ∧ resolveRSpec 2 (RInput.vector [1, 2, 3]) = Except.error () := by
  constructor
  · rfl
  · rfl

/-- Claim C9 (amended): a scalar or a length-1 sequence is broadcast to all
N nodes; a sequence of any other length - including one that matches N and
one that does not - is passed through unchanged: the source performs no
length validation and no DimensionMismatchError exists in the code. -/
theorem claim_C9_parameter_resolution (n : ℕ) (c : ℚ) (v : List ℚ) :
    resolveR n (RInput.scalar c) = List.replicate n c
    ∧ (v.length = 1 → resolveR n (RInput.vector v) = List.replicate n (v.getD 0 0))
    ∧ (v.length ≠ 1 → resolveR n (RInput.vector v) = v) := by
  refine ⟨rfl, ?_, ?_⟩
  · intro h
    simp [resolveR, h]
  · intro h
    simp [resolveR, h]

theorem claim_C9_parameter_resolution_witness :
    ([1, 2, 3] : List ℚ).length ≠ 1
    ∧ resolveR 2 (RInput.scalar 4) = List.replicate 2 4
    ∧ resolveR 2 (RInput.vector [1, 2, 3]) = [1, 2, 3] :=
  ⟨by norm_num, (claim_C9_parameter_resolution 2 4 [1, 2, 3]).1,
    (claim_C9_parameter_resolution 2 4 [1, 2, 3]).2.2 (by norm_num)⟩

/-- Claim C10: the node count is read as the length of the second row of
the adjacency matrix (nonodes=len(A[1,:])), so a matrix with fewer than two
rows - in particular the 1x1 matrix [[0]] - raises an index error (modelled
as none) before anything is computed; with at least two rows a node count
is obtained. -/
theorem claim_C10_single_node_rejected (A : List (List ℕ)) :
    (A.length < 2 → nonodesOf A = none)
    ∧ (2 ≤ A.length → ∃ n, nonodesOf A = some n) := by
  cases A with
  | nil =>
    refine ⟨fun _ => rfl, fun h => ?_⟩
    simp at h
  | cons r1 rest =>
    cases rest with
    | nil =>
      refine ⟨fun _ => rfl, fun h => ?_⟩
      simp at h
    | cons r2 rest2 =>
      refine ⟨fun h => ?_, fun _ => ⟨r2.length, rfl⟩⟩
      simp only [List.length_cons] at h
      omega

theorem claim_C10_single_node_rejected_witness :
    ([[0]] : List (List ℕ)).length < 2
    ∧ nonodesOf [[0]] = none
    ∧ 2 ≤ ([[0, 1], [0, 0]] : List (List ℕ)).length
    ∧ ∃ n, nonodesOf [[0, 1], [0, 0]] = some n :=
  ⟨by norm_num, (claim_C10_single_node_rejected [[0]]).1 (by norm_num),
    by norm_num,
    (claim_C10_single_node_rejected [[0, 1], [0, 0]]).2 (by norm_num)⟩
